import Mathlib

/-!
Shallow embedding of `src/scripts/seq2seq_attention.py` (a PyTorch
sequence-to-sequence translation model with additive-style attention).

Modelling conventions:
* real-valued tensors become `Fin`-indexed functions over `ℚ`; the time axis
  of a batch is a `List` (time-major, as in the source where tensors are
  `seq_len * bs * ...`);
* nonlinear library primitives that the claims do not inspect (the GRU cells,
  `torch.tanh`, the exponential inside `F.softmax`, dropout) are carried as
  explicit function parameters / fields, so every definition stays computable;
  softmax takes its exponential `e : ℚ → ℚ` as a parameter and the claims
  about it assume only `∀ x, 0 < e x`, which the real exponential satisfies;
* `random.random()` becomes an explicit stream `rand : Nat → ℚ` of draws,
  one fresh value per decoding step, with values in `[0, 1)` where a claim
  needs that fact.
-/

/-- A dense vector of rational entries, `Vec n = Fin n → ℚ`. -/
abbrev Vec (n : Nat) : Type := Fin n → ℚ

/-- A batch of token ids, one per batch element (`bs` = batch size). -/
abbrev TokBatch (bs V : Nat) : Type := Fin bs → Fin V

/-- A batch of vectors, one per batch element. -/
abbrev VecBatch (bs n : Nat) : Type := Fin bs → Vec n

/-- Concatenation of two vectors along the feature axis (`torch.cat`). -/
def vcat {a b : Nat} (x : Vec a) (y : Vec b) : Vec (a + b) :=
  fun i => Fin.addCases x y i

/-- An `nn.Linear` layer: weight matrix and bias. -/
structure Linear (inF outF : Nat) where
  weight : Fin outF → Fin inF → ℚ
  bias : Fin outF → ℚ

/-- Application of a linear layer: `W x + b`. -/
def Linear.apply {inF outF : Nat} (l : Linear inF outF) (x : Vec inF) : Vec outF :=
  fun o => (∑ i, l.weight o i * x i) + l.bias o

/-- `F.softmax` along a list axis, with the exponential passed explicitly. -/
def softmaxList (e : ℚ → ℚ) (xs : List ℚ) : List ℚ :=
  xs.map (fun x => e x / (xs.map e).sum)

/-- The `Attention` module: `nn.Linear(attention_in, attention_dim)` where
`attention_in = 2*encoder_hidden + decoder_hidden`, plus the ambient
`torch.tanh`.  The linear layer is typed in the order the source concatenates
its input: repeated decoder hidden first, then the encoder outputs. -/
structure Attention (H D A : Nat) where
  attention : Linear (D + (H + H)) A
  tanh : ℚ → ℚ

/-- The raw attention energies of `Attention.forward`, before softmax: for
each source position, concatenate the decoder hidden state with that
position's encoder output, apply the linear layer and `tanh`, and collapse
the attention dimension by summation. -/
def attnScores {bs H D A : Nat} (attn : Attention H D A) (dh : VecBatch bs D)
    (encOuts : List (VecBatch bs (H + H))) (b : Fin bs) : List ℚ :=
  encOuts.map (fun eo => ∑ a, attn.tanh (attn.attention.apply (vcat (dh b) (eo b)) a))

/-- `Attention.forward`: softmax of the raw energies along the source
positions, per batch element.  The result is one weight per source position
(`bs * seq_len` in the source). -/
def Attention.forward {bs H D A : Nat} (e : ℚ → ℚ) (attn : Attention H D A)
    (dh : VecBatch bs D) (encOuts : List (VecBatch bs (H + H))) :
    Fin bs → List ℚ :=
  fun b => softmaxList e (attnScores attn dh encOuts b)

/-- Sums of lists of nonnegative rationals are nonnegative. -/
theorem list_sum_nonneg (l : List ℚ) (h : ∀ x ∈ l, 0 ≤ x) : 0 ≤ l.sum := by
  induction l with
  | nil => simp
  | cons a t ih =>
      simp only [List.sum_cons]
      have ha : 0 ≤ a := h a (List.mem_cons_self a t)
      have ht : 0 ≤ t.sum := ih (fun x hx => h x (List.mem_cons_of_mem a hx))
      linarith

/-- A nonempty list of positive images has positive sum. -/
theorem list_map_sum_pos (e : ℚ → ℚ) (hpos : ∀ x, 0 < e x) (xs : List ℚ)
    (hne : xs ≠ []) : 0 < (xs.map e).sum := by
  cases xs with
  | nil => exact absurd rfl hne
  | cons a t =>
      simp only [List.map_cons, List.sum_cons]
      have ht : 0 ≤ (t.map e).sum := by
        refine list_sum_nonneg _ ?_
        intro x hx
        rcases List.mem_map.1 hx with ⟨y, _, rfl⟩
        exact le_of_lt (hpos y)
      have := hpos a
      linarith

/-- Dividing every element of a mapped list by a constant divides the sum. -/
theorem list_map_div_sum (f : ℚ → ℚ) (c : ℚ) (xs : List ℚ) :
    (xs.map (fun x => f x / c)).sum = (xs.map f).sum / c := by
  induction xs with
  | nil => simp
  | cons a t ih => simp [ih, add_div]

/-- Softmax rows sum to 1 when the exponential is positive and the list is
nonempty. -/
theorem softmaxList_sum (e : ℚ → ℚ) (hpos : ∀ x, 0 < e x) (xs : List ℚ)
    (hne : xs ≠ []) : (softmaxList e xs).sum = 1 := by
  unfold softmaxList
  rw [list_map_div_sum]
  exact div_self (ne_of_gt (list_map_sum_pos e hpos xs hne))

/-- Softmax entries are nonnegative when the exponential is positive. -/
theorem softmaxList_nonneg (e : ℚ → ℚ) (hpos : ∀ x, 0 < e x) (xs : List ℚ)
    (hne : xs ≠ []) : ∀ w ∈ softmaxList e xs, 0 ≤ w := by
  intro w hw
  unfold softmaxList at hw
  rcases List.mem_map.1 hw with ⟨y, _, rfl⟩
  exact le_of_lt (div_pos (hpos y) (list_map_sum_pos e hpos xs hne))

/-- Claim C2: for every decoder state and nonempty stack of encoder
representations, `Attention.forward` returns, for each batch element, a list
of weights over source positions in which every entry is nonnegative and the
entries sum to 1 (exactly, in this rational model; the floating-point code
achieves this within rounding). -/
theorem attention_rows_nonneg_sum_one {bs H D A : Nat} (e : ℚ → ℚ)
    (attn : Attention H D A) (dh : VecBatch bs D)
    (encOuts : List (VecBatch bs (H + H)))
    (hpos : ∀ x, 0 < e x) (hne : encOuts ≠ []) :
    ∀ b, (∀ w ∈ Attention.forward e attn dh encOuts b, 0 ≤ w) ∧
      (Attention.forward e attn dh encOuts b).sum = 1 := by
  intro b
  have hscores : attnScores attn dh encOuts b ≠ [] := by
    unfold attnScores
    simpa using hne
  exact ⟨softmaxList_nonneg e hpos _ hscores, softmaxList_sum e hpos _ hscores⟩

/-- A generic scan for a single-direction recurrent pass (`nn.GRU` over a
sequence): returns the hidden state after each input (the per-position
outputs of the recurrence) together with the final hidden state. -/
def gruScan {α β : Type} (cell : α → β → β) : β → List α → List β × β
  | h, [] => ([], h)
  | h, x :: xs =>
      let h1 := cell x h
      let r := gruScan cell h1 xs
      (h1 :: r.1, r.2)

/-- The per-position output list of `gruScan` has the input's length. -/
theorem gruScan_length {α β : Type} (cell : α → β → β) (h : β) (l : List α) :
    (gruScan cell h l).1.length = l.length := by
  induction l generalizing h with
  | nil => rfl
  | cons x xs ih => simp [gruScan, ih]

/-- The `Encoder` module: embedding, a bidirectional GRU (one cell per
direction, both started from the zero state as `nn.GRU` does), the
`fc : nn.Linear(2*H, D)` projection, dropout, and the ambient `torch.tanh`. -/
structure Encoder (V E H D : Nat) where
  embedding : Fin V → Vec E
  gruF : Vec E → Vec H → Vec H
  gruB : Vec E → Vec H → Vec H
  fc : Linear (H + H) D
  dropout : Vec E → Vec E
  tanh : ℚ → ℚ

/-- The embedded (and dropout-masked) source sequence,
`self.dropout(self.embedding(src))`. -/
def Encoder.embedSrc {bs V E H D : Nat} (enc : Encoder V E H D)
    (src : List (TokBatch bs V)) : List (VecBatch bs E) :=
  src.map (fun row b => enc.dropout (enc.embedding (row b)))

/-- The final hidden state of the forward direction of the encoder's GRU
(`hidden[-2,:,:]` in the source). -/
def Encoder.hForward {bs V E H D : Nat} (enc : Encoder V E H D)
    (src : List (TokBatch bs V)) : VecBatch bs H :=
  (gruScan (fun x h b => enc.gruF (x b) (h b)) (fun _ _ => 0)
    (enc.embedSrc src)).2

/-- The final hidden state of the backward direction of the encoder's GRU
(`hidden[-1,:,:]` in the source): the backward cell consumes the sequence in
reverse. -/
def Encoder.hBackward {bs V E H D : Nat} (enc : Encoder V E H D)
    (src : List (TokBatch bs V)) : VecBatch bs H :=
  (gruScan (fun x h b => enc.gruB (x b) (h b)) (fun _ _ => 0)
    (enc.embedSrc src).reverse).2

/-- `Encoder.forward`: per-position outputs (the concatenation of the
forward-direction and backward-direction hidden states at each position,
`seq_len * bs * (2*hidden)` in the source) and the summary state
`tanh(fc(cat(hidden[-2], hidden[-1])))` (`bs * decoder_hidden_dim`). -/
def Encoder.forward {bs V E H D : Nat} (enc : Encoder V E H D)
    (src : List (TokBatch bs V)) :
    List (VecBatch bs (H + H)) × VecBatch bs D :=
  let embedded := enc.embedSrc src
  let fwd := gruScan (fun x h b => enc.gruF (x b) (h b)) (fun _ _ => 0) embedded
  let bwd := gruScan (fun x h b => enc.gruB (x b) (h b)) (fun _ _ => 0)
    embedded.reverse
  let outputs := List.zipWith (fun f g b => vcat (f b) (g b)) fwd.1 bwd.1.reverse
  let hidden : VecBatch bs D :=
    fun b i => enc.tanh ((enc.fc.apply (vcat (fwd.2 b) (bwd.2 b))) i)
  (outputs, hidden)

/-- Claim C6: for every source batch, the encoder's per-position output list
has one entry per source position (leading dimensions = sequence length,
then batch by typing), and the summary state (typed `batch → decoder-hidden`)
is the elementwise hyperbolic tangent of the `fc` layer applied to the
concatenation of the final hidden states of the two recurrence directions. -/
theorem encoder_forward_shapes_and_summary {bs V E H D : Nat}
    (enc : Encoder V E H D) (src : List (TokBatch bs V)) :
    (Encoder.forward enc src).1.length = src.length ∧
      (Encoder.forward enc src).2 =
        fun b i =>
          enc.tanh
            ((enc.fc.apply (vcat (enc.hForward src b) (enc.hBackward src b))) i) := by
  constructor
  · show (List.zipWith _ _ _).length = _
    rw [List.length_zipWith, gruScan_length, List.length_reverse, gruScan_length,
      List.length_reverse]
    simp [Encoder.embedSrc, min_self]
  · rfl

/-- The `Decoder` module: target-side embedding, the shared `Attention`
module, the single-step GRU cell `nn.GRU(2*H + K, D)` (for a one-step
unidirectional GRU the step output equals the new hidden state), the output
projection `nn.Linear(attention_in + K, W)` typed in the concatenation order
`(step output, weighted context, embedded token)`, and dropout. -/
structure Decoder (W K H D A : Nat) where
  embedding : Fin W → Vec K
  att : Attention H D A
  gru : Vec (K + (H + H)) → Vec D → Vec D
  out : Linear (D + (H + H) + K) W
  dropout : Vec K → Vec K

/-- `Decoder._weighted_encoder_rep`: the attention-weighted sum of encoder
outputs (the context vector), one vector per batch element. -/
def Decoder.weightedRep {bs W K H D A : Nat} (e : ℚ → ℚ) (d : Decoder W K H D A)
    (dh : VecBatch bs D) (encOuts : List (VecBatch bs (H + H))) :
    VecBatch bs (H + H) :=
  fun b i =>
    (List.zipWith (fun w eo => w * eo b i)
      (Attention.forward e d.att dh encOuts b) encOuts).sum

/-- The embedded (and dropout-masked) previous output token,
`self.dropout(self.embedding(input))`. -/
def Decoder.embedTok {bs W K H D A : Nat} (d : Decoder W K H D A)
    (input : TokBatch bs W) : VecBatch bs K :=
  fun b => d.dropout (d.embedding (input b))

/-- `Decoder.forward`: one decoding step.  Embeds the previous token,
computes the context vector, feeds their concatenation one step through the
GRU, and projects `cat(step output, context, embedded token)` through the
`out` linear layer to unnormalized scores.  Returns the scores
(`bs * num_output_features`) and the updated decoder state (`bs * D`). -/
def Decoder.forward {bs W K H D A : Nat} (e : ℚ → ℚ) (d : Decoder W K H D A)
    (input : TokBatch bs W) (dh : VecBatch bs D)
    (encOuts : List (VecBatch bs (H + H))) :
    VecBatch bs W × VecBatch bs D :=
  let embedded := d.embedTok input
  let weighted := d.weightedRep e dh encOuts
  let rnnInput : VecBatch bs (K + (H + H)) := fun b => vcat (embedded b) (weighted b)
  let newHidden : VecBatch bs D := fun b => d.gru (rnnInput b) (dh b)
  let output : VecBatch bs W :=
    fun b => d.out.apply (vcat (vcat (newHidden b) (weighted b)) (embedded b))
  (output, newHidden)

/-- Claim C5: the decoder step's first output is exactly the single `out`
linear layer applied to the concatenation of the recurrent step output (which
equals the returned updated state), the attention-weighted context vector,
and the embedded previous token — raw unnormalized scores, no softmax — and
its second output is the updated decoder state (typed `batch → D`). -/
theorem decoder_step_unnormalized_projection {bs W K H D A : Nat}
    (e : ℚ → ℚ) (d : Decoder W K H D A) (input : TokBatch bs W)
    (dh : VecBatch bs D) (encOuts : List (VecBatch bs (H + H))) :
    (Decoder.forward e d input dh encOuts).1 =
      (fun b =>
        d.out.apply
          (vcat
            (vcat ((Decoder.forward e d input dh encOuts).2 b)
              (d.weightedRep e dh encOuts b))
            (d.embedTok input b))) ∧
      (Decoder.forward e d input dh encOuts).2 =
        fun b =>
          d.gru (vcat (d.embedTok input b) (d.weightedRep e dh encOuts b)) (dh b) :=
  ⟨rfl, rfl⟩

/-- `output.max(1)[1]` for one batch element: the index of the maximal entry
(first one among ties), by a scan over all indices. -/
def argmaxAux {n : Nat} (f : Fin n → ℚ) : List (Fin n) → Fin n → Fin n
  | [], best => best
  | i :: rest, best => argmaxAux f rest (if f best < f i then i else best)

/-- Index of the maximal entry of a nonempty-vocabulary score vector. -/
def argmaxFin {n : Nat} [NeZero n] (f : Fin n → ℚ) : Fin n :=
  argmaxAux f (List.finRange n) 0

/-- The `Seq2Seq` module: an encoder and a decoder. -/
structure Seq2Seq (V W E K H D A : Nat) where
  encoder : Encoder V E H D
  decoder : Decoder W K H D A

/-- State of the driver's decoding loop.  `loopState ... t` is the pair
`(output, hidden)` of the source's loop variables after iteration `t` (for
`t = 0`, before the first iteration): `output` is the token batch that will
be fed to the decoder next, `hidden` the current decoder state.  Iteration
`t+1` runs the decoder step, draws `rand (t+1)` and compares it with the
teacher-forcing probability `tfp`; on success the next input is the
ground-truth target at position `t+1`, otherwise the argmax of the scores
just produced.  The first input is the target's position-0 token row. -/
def Seq2Seq.loopState {bs V W E K H D A : Nat} [NeZero W]
    (m : Seq2Seq V W E K H D A) (e : ℚ → ℚ) (rand : Nat → ℚ)
    (trg : List (TokBatch bs W)) (tfp : ℚ)
    (encOuts : List (VecBatch bs (H + H))) (h0 : VecBatch bs D) :
    Nat → TokBatch bs W × VecBatch bs D
  | 0 => (trg.getD 0 (fun _ => 0), h0)
  | t + 1 =>
      let s := Seq2Seq.loopState m e rand trg tfp encOuts h0 t
      let step := Decoder.forward e m.decoder s.1 s.2 encOuts
      (if rand (t + 1) < tfp then trg.getD (t + 1) (fun _ => 0)
       else fun b => argmaxFin (step.1 b),
       step.2)

/-- The scores the decoder produces at loop iteration `t+1` (recorded at
time index `t+1` of the output tensor). -/
def Seq2Seq.stepScores {bs V W E K H D A : Nat} [NeZero W]
    (m : Seq2Seq V W E K H D A) (e : ℚ → ℚ) (rand : Nat → ℚ)
    (trg : List (TokBatch bs W)) (tfp : ℚ)
    (encOuts : List (VecBatch bs (H + H))) (h0 : VecBatch bs D)
    (t : Nat) : VecBatch bs W :=
  (Decoder.forward e m.decoder
    (Seq2Seq.loopState m e rand trg tfp encOuts h0 t).1
    (Seq2Seq.loopState m e rand trg tfp encOuts h0 t).2 encOuts).1

/-- `Seq2Seq.forward`: run the encoder once, seed the loop with the target's
first token row and the encoder's summary state, and iterate the decoding
loop over target positions `1 .. max_len - 1`, recording each step's scores.
Time index 0 of the result keeps the all-zero row `torch.zeros` put there. -/
def Seq2Seq.forward {bs V W E K H D A : Nat} [NeZero W]
    (m : Seq2Seq V W E K H D A) (e : ℚ → ℚ) (rand : Nat → ℚ)
    (src : List (TokBatch bs V)) (trg : List (TokBatch bs W)) (tfp : ℚ) :
    List (VecBatch bs W) :=
  let encRes := m.encoder.forward src
  (fun _ _ => 0) ::
    (List.range (trg.length - 1)).map
      (fun k => Seq2Seq.stepScores m e rand trg tfp encRes.1 encRes.2 k)

/-- Claim C1: for every target position `t` with `1 ≤ t < trg.length`, the
driver's output at time index `t` is the scores of loop iteration `t` (the
decoder step run on the previous loop state), the decoder input prepared for
the following step is the ground-truth target row at position `t` when the
step's draw `rand t` beats the teacher-forcing probability (`rand t < tfp`)
and the argmax of the just-produced scores otherwise, and the very first
decoder input is the target's row at position 0. -/
theorem seq2seq_driver_step {bs V W E K H D A : Nat} [NeZero W]
    (m : Seq2Seq V W E K H D A) (e : ℚ → ℚ) (rand : Nat → ℚ)
    (src : List (TokBatch bs V)) (trg : List (TokBatch bs W)) (tfp : ℚ)
    (t : Nat) (h1 : 1 ≤ t) (h2 : t < trg.length) :
    (Seq2Seq.forward m e rand src trg tfp)[t]? =
      some (Seq2Seq.stepScores m e rand trg tfp (m.encoder.forward src).1
        (m.encoder.forward src).2 (t - 1)) ∧
    (Seq2Seq.loopState m e rand trg tfp (m.encoder.forward src).1
        (m.encoder.forward src).2 t).1 =
      (if rand t < tfp then trg.getD t (fun _ => 0)
       else fun b =>
        argmaxFin (Seq2Seq.stepScores m e rand trg tfp (m.encoder.forward src).1
          (m.encoder.forward src).2 (t - 1) b)) ∧
    (Seq2Seq.loopState m e rand trg tfp (m.encoder.forward src).1
        (m.encoder.forward src).2 0).1 = trg.getD 0 (fun _ => 0) := by
  obtain ⟨k, rfl⟩ : ∃ k, t = k + 1 := ⟨t - 1, (Nat.succ_pred_eq_of_pos h1).symm⟩
  refine ⟨?_, ?_, rfl⟩
  · show (_ :: _)[k + 1]? = _
    rw [List.getElem?_cons_succ, List.getElem?_map]
    have hk : k < trg.length - 1 := by omega
    rw [List.getElem?_range hk]
    rfl
  · rw [Seq2Seq.loopState]
    rfl

/-- With teacher-forcing probability 0 and nonnegative draws, the decoding
loop state depends neither on the draw stream nor on target rows past
position 0: every step's comparison `rand t < 0` fails, so the loop always
feeds back its own argmax. -/
theorem loopState_tfp_zero_congr {bs V W E K H D A : Nat} [NeZero W]
    (m : Seq2Seq V W E K H D A) (e : ℚ → ℚ) (r1 r2 : Nat → ℚ)
    (trg1 trg2 : List (TokBatch bs W))
    (encOuts : List (VecBatch bs (H + H))) (h0 : VecBatch bs D)
    (hr1 : ∀ t, 0 ≤ r1 t) (hr2 : ∀ t, 0 ≤ r2 t)
    (h0eq : trg1.getD 0 (fun _ => 0) = trg2.getD 0 (fun _ => 0)) :
    ∀ t, Seq2Seq.loopState m e r1 trg1 0 encOuts h0 t =
      Seq2Seq.loopState m e r2 trg2 0 encOuts h0 t := by
  intro t
  induction t with
  | zero =>
      simp only [Seq2Seq.loopState, h0eq]
  | succ t ih =>
      simp only [Seq2Seq.loopState]
      rw [ih, if_neg (not_lt.2 (hr1 (t + 1))), if_neg (not_lt.2 (hr2 (t + 1)))]

/-- With teacher-forcing probability 0 and nonnegative draws, the whole
driver output depends neither on the draw stream nor on target rows past
position 0 (lengths and position-0 rows being equal). -/
theorem forward_tfp_zero_congr {bs V W E K H D A : Nat} [NeZero W]
    (m : Seq2Seq V W E K H D A) (e : ℚ → ℚ) (r1 r2 : Nat → ℚ)
    (src : List (TokBatch bs V)) (trg1 trg2 : List (TokBatch bs W))
    (hr1 : ∀ t, 0 ≤ r1 t) (hr2 : ∀ t, 0 ≤ r2 t)
    (hlen : trg1.length = trg2.length)
    (h0eq : trg1.getD 0 (fun _ => 0) = trg2.getD 0 (fun _ => 0)) :
    Seq2Seq.forward m e r1 src trg1 0 = Seq2Seq.forward m e r2 src trg2 0 := by
  unfold Seq2Seq.forward
  rw [hlen]
  refine congrArg _ (List.map_congr_left ?_)
  intro k _
  unfold Seq2Seq.stepScores
  rw [loopState_tfp_zero_congr m e r1 r2 trg1 trg2 _ _ hr1 hr2 h0eq]

/-- Claim C3: with teacher-forcing probability 0 (and the draw stream
nonnegative, as `random.random()` is), the driver's output is invariant to
the ground-truth target rows at positions greater than 0: two target batches
of equal length agreeing at position 0 yield identical score tensors under
the same source batch, parameters and randomness. -/
theorem driver_tfp_zero_target_independence {bs V W E K H D A : Nat} [NeZero W]
    (m : Seq2Seq V W E K H D A) (e : ℚ → ℚ) (rand : Nat → ℚ)
    (src : List (TokBatch bs V)) (trg1 trg2 : List (TokBatch bs W))
    (hrand : ∀ t, 0 ≤ rand t)
    (hlen : trg1.length = trg2.length)
    (h0eq : trg1.getD 0 (fun _ => 0) = trg2.getD 0 (fun _ => 0)) :
    Seq2Seq.forward m e rand src trg1 0 = Seq2Seq.forward m e rand src trg2 0 :=
  forward_tfp_zero_congr m e rand rand src trg1 trg2 hrand hrand hlen h0eq

/-- Claim C9: when the teacher-forcing probability is at least 1 and every
draw lies in `[0, 1)` (as `random.random()` guarantees), the comparison
`rand t < tfp` succeeds at every step, so the decoder input prepared by every
loop iteration — and the initial one — is the ground-truth target row; the
argmax feedback path is never taken. -/
theorem teacher_forcing_saturated {bs V W E K H D A : Nat} [NeZero W]
    (m : Seq2Seq V W E K H D A) (e : ℚ → ℚ) (rand : Nat → ℚ)
    (trg : List (TokBatch bs W)) (tfp : ℚ)
    (encOuts : List (VecBatch bs (H + H))) (h0 : VecBatch bs D)
    (htfp : 1 ≤ tfp) (hrand : ∀ t, 0 ≤ rand t ∧ rand t < 1) (t : Nat) :
    (Seq2Seq.loopState m e rand trg tfp encOuts h0 t).1 =
      trg.getD t (fun _ => 0) := by
  cases t with
  | zero => rfl
  | succ t =>
      simp only [Seq2Seq.loopState]
      rw [if_pos (lt_of_lt_of_le (hrand (t + 1)).2 htfp)]

/-- Claim C4: for every nonempty target batch, the driver's output has one
time step per target position, and its row at time index 0 is the all-zero
placeholder. -/
theorem driver_output_shape {bs V W E K H D A : Nat} [NeZero W]
    (m : Seq2Seq V W E K H D A) (e : ℚ → ℚ) (rand : Nat → ℚ)
    (src : List (TokBatch bs V)) (trg : List (TokBatch bs W)) (tfp : ℚ)
    (hne : trg ≠ []) :
    (Seq2Seq.forward m e rand src trg tfp).length = trg.length ∧
      (Seq2Seq.forward m e rand src trg tfp)[0]? =
        some (fun _ _ => (0 : ℚ)) := by
  constructor
  · have hpos : 0 < trg.length := List.length_pos.2 hne
    simp only [Seq2Seq.forward, List.length_cons, List.length_map,
      List.length_range]
    omega
  · simp [Seq2Seq.forward]

/-- Claim C10: when the target batch has length 1, the decoding loop body
never runs: the output is exactly the single all-zero time step, and the
result is invariant to the decoder, the draw stream and the teacher-forcing
probability (so no decoder step and no random draw can influence it). -/
theorem driver_length_one_no_decoding {bs V W E K H D A : Nat} [NeZero W]
    (m : Seq2Seq V W E K H D A) (e : ℚ → ℚ) (rand : Nat → ℚ)
    (src : List (TokBatch bs V)) (trg : List (TokBatch bs W)) (tfp : ℚ)
    (hlen : trg.length = 1) :
    Seq2Seq.forward m e rand src trg tfp = [fun _ _ => (0 : ℚ)] ∧
      ∀ (d1 d2 : Decoder W K H D A) (r1 r2 : Nat → ℚ) (p1 p2 : ℚ),
        Seq2Seq.forward ⟨m.encoder, d1⟩ e r1 src trg p1 =
          Seq2Seq.forward ⟨m.encoder, d2⟩ e r2 src trg p2 := by
  constructor
  · simp [Seq2Seq.forward, hlen]
  · intro d1 d2 r1 r2 p1 p2
    simp [Seq2Seq.forward, hlen]

/-- Per-item cross-entropy against unnormalized scores:
`log(sum_j exp(pred_j)) - pred_y`, with the logarithm and exponential carried
as explicit parameters (as with softmax). -/
def ceItem (lg e : ℚ → ℚ) {n : Nat} (pred : Vec n) (y : Fin n) : ℚ :=
  lg (∑ j, e (pred j)) - pred y

/-- `nn.CrossEntropyLoss(ignore_index = pad_idx)` with mean reduction over a
flat list of (score row, target) items: items whose target equals the ignored
index are dropped, and the per-item losses of the rest are averaged over
their own count. -/
def criterionLoss (lg e : ℚ → ℚ) {n : Nat} (padIdx : Fin n)
    (items : List (Vec n × Fin n)) : ℚ :=
  let kept := items.filter (fun it => decide (it.2 ≠ padIdx))
  (kept.map (fun it => ceItem lg e it.1 it.2)).sum / kept.length

/-- The reshaping done by `train`/`evaluate` before the loss: drop the first
time step of both the driver output and the target
(`output[1:]` / `trg[1:]`), then flatten time × batch into one item axis
(`view(-1, ...)` / `view(-1)`). -/
def flattenForLoss {bs n : Nat} (output : List (VecBatch bs n))
    (trg : List (TokBatch bs n)) : List (Vec n × Fin n) :=
  ((output.drop 1).zip (trg.drop 1)).flatMap
    (fun p => (List.finRange bs).map (fun b => (p.1 b, p.2 b)))

/-- The loss a training / evaluation iteration computes for one batch:
masked cross-entropy over the flattened, first-step-dropped scores. -/
def batchLoss (lg e : ℚ → ℚ) {bs n : Nat} (padIdx : Fin n)
    (output : List (VecBatch bs n)) (trg : List (TokBatch bs n)) : ℚ :=
  criterionLoss lg e padIdx (flattenForLoss output trg)

/-- Items related pointwise by equal targets, and equal score rows wherever
the target is not the ignored index, filter to equal kept lists. -/
theorem filter_keep_congr {n : Nat} (padIdx : Fin n)
    {l1 l2 : List (Vec n × Fin n)}
    (hf : List.Forall₂
      (fun p q => p.2 = q.2 ∧ (p.2 ≠ padIdx → p.1 = q.1)) l1 l2) :
    l1.filter (fun it => decide (it.2 ≠ padIdx)) =
      l2.filter (fun it => decide (it.2 ≠ padIdx)) := by
  induction hf with
  | nil => rfl
  | cons h hs ih =>
      rename_i a b l1 l2
      by_cases hp : a.2 = padIdx
      · have hb : b.2 = padIdx := by rw [← h.1]; exact hp
        rw [List.filter_cons, List.filter_cons, if_neg (by simp [hp]),
          if_neg (by simp [hb]), ih]
      · have hb : b.2 ≠ padIdx := by rw [← h.1]; exact hp
        have hab : a = b := by
          cases a
          cases b
          simp only [Prod.mk.injEq]
          exact ⟨h.2 hp, h.1⟩
        rw [List.filter_cons, List.filter_cons, if_pos (by simp [hp]),
          if_pos (by simp [hb]), ih, hab]

/-- `criterionLoss` is determined by the kept items, so it is invariant
under the relation of `filter_keep_congr`. -/
theorem criterionLoss_congr (lg e : ℚ → ℚ) {n : Nat} (padIdx : Fin n)
    {l1 l2 : List (Vec n × Fin n)}
    (hf : List.Forall₂
      (fun p q => p.2 = q.2 ∧ (p.2 ≠ padIdx → p.1 = q.1)) l1 l2) :
    criterionLoss lg e padIdx l1 = criterionLoss lg e padIdx l2 := by
  unfold criterionLoss
  rw [filter_keep_congr padIdx hf]

/-- Mapping two functions over one list yields `Forall₂` of the pointwise
relation. -/
theorem forall_two_map_same {α β : Type} (R : β → β → Prop) (f g : α → β)
    (l : List α) (h : ∀ a ∈ l, R (f a) (g a)) :
    List.Forall₂ R (l.map f) (l.map g) := by
  induction l with
  | nil => exact List.Forall₂.nil
  | cons x xs ih =>
      exact List.Forall₂.cons (h x (List.mem_cons_self x xs))
        (ih fun a ha => h a (List.mem_cons_of_mem x ha))

/-- `Forall₂` is preserved by appending related lists. -/
theorem forall_two_append {α β : Type} {R : α → β → Prop}
    {l1 u1 : List α} {l2 u2 : List β} (h : List.Forall₂ R l1 l2)
    (h' : List.Forall₂ R u1 u2) : List.Forall₂ R (l1 ++ u1) (l2 ++ u2) := by
  induction h with
  | nil => exact h'
  | cons hx hxs ih => exact List.Forall₂.cons hx ih

/-- Two flattened score/target item lists built from outputs of equal length
that agree wherever the target row is not the pad index are related pointwise
in the sense of `filter_keep_congr`. -/
theorem flatten_items_congr {bs n : Nat} (padIdx : Fin n) :
    ∀ (o1 o2 : List (VecBatch bs n)) (ts : List (TokBatch bs n)),
      o1.length = o2.length →
      (∀ t b, (ts.getD t (fun _ => padIdx)) b ≠ padIdx →
        (o1.getD t (fun _ _ => 0)) b = (o2.getD t (fun _ _ => 0)) b) →
      List.Forall₂
        (fun p q => p.2 = q.2 ∧ (p.2 ≠ padIdx → p.1 = q.1))
        ((o1.zip ts).flatMap (fun p => (List.finRange bs).map (fun b => (p.1 b, p.2 b))))
        ((o2.zip ts).flatMap (fun p => (List.finRange bs).map (fun b => (p.1 b, p.2 b))))
  | [], o2, ts, hlen, hag => by
      have : o2 = [] := List.length_eq_zero.1 hlen.symm
      subst this
      exact List.Forall₂.nil
  | x1 :: r1, [], ts, hlen, hag => by cases hlen
  | x1 :: r1, x2 :: r2, [], hlen, hag => List.Forall₂.nil
  | x1 :: r1, x2 :: r2, y :: ys, hlen, hag => by
      simp only [List.zip_cons_cons, List.flatMap_cons]
      refine forall_two_append ?_ ?_
      · refine forall_two_map_same _ _ _ _ ?_
        intro b _
        refine ⟨rfl, ?_⟩
        intro hb
        have := hag 0 b
        simp only [List.getD_cons_zero] at this
        exact this hb
      · refine flatten_items_congr padIdx r1 r2 ys (by simpa using hlen) ?_
        intro t b hb
        have := hag (t + 1) b
        simp only [List.getD_cons_succ] at this
        exact this hb

/-- Claim C7: the batch loss of the training / evaluation loops ignores
score rows at pad-target positions.  For one target batch and two score
tensors of equal length that agree at every (time ≥ 1, batch) position whose
target token differs from the pad index, the computed loss is identical —
whatever occupies the pad positions cannot influence it. -/
theorem loss_pad_position_invariance {bs n : Nat} (lg e : ℚ → ℚ)
    (padIdx : Fin n) (output1 output2 : List (VecBatch bs n))
    (trg : List (TokBatch bs n))
    (hlen : output1.length = output2.length)
    (hag : ∀ t b, (trg.getD (t + 1) (fun _ => padIdx)) b ≠ padIdx →
      (output1.getD (t + 1) (fun _ _ => 0)) b =
        (output2.getD (t + 1) (fun _ _ => 0)) b) :
    batchLoss lg e padIdx output1 trg = batchLoss lg e padIdx output2 trg := by
  unfold batchLoss flattenForLoss
  apply criterionLoss_congr
  apply flatten_items_congr padIdx (output1.drop 1) (output2.drop 1)
    (trg.drop 1) (by simp [hlen])
  intro t b
  have hd1 : ∀ (l : List (VecBatch bs n)),
      (l.drop 1).getD t (fun _ _ => (0 : ℚ)) = l.getD (t + 1) (fun _ _ => 0) := by
    intro l
    simp [List.getD_eq_getElem?_getD, List.getElem?_drop, Nat.add_comm]
  have hd2 : (trg.drop 1).getD t (fun _ => padIdx) =
      trg.getD (t + 1) (fun _ => padIdx) := by
    simp [List.getD_eq_getElem?_getD, List.getElem?_drop, Nat.add_comm]
  rw [hd1, hd1, hd2]
  exact hag t b

/-- One batch yielded by the iterator: parallel source and target tensors. -/
structure Batch (bs V W : Nat) where
  src : List (TokBatch bs V)
  trg : List (TokBatch bs W)

/-- The `evaluate` loop: for each batch run the driver with teacher-forcing
probability 0, compute the masked cross-entropy of the reshaped output, and
average over the batch count.  It performs no parameter update, so it returns
the model unchanged alongside the epoch loss; `rand i` is the stream of
teacher-forcing draws that would be consumed while processing batch `i`. -/
def evaluate {bs V W E K H D A : Nat} [NeZero W] (m : Seq2Seq V W E K H D A)
    (e lg : ℚ → ℚ) (padIdx : Fin W) (rand : Nat → Nat → ℚ)
    (iter : List (Batch bs V W)) : Seq2Seq V W E K H D A × ℚ :=
  (m,
    ((iter.enum.map (fun p =>
        batchLoss lg e padIdx
          (Seq2Seq.forward m e (rand p.1) p.2.src p.2.trg 0) p.2.trg)).sum)
      / iter.length)

/-- Claim C8: the evaluation loop leaves every model parameter exactly as it
was, invokes the driver with teacher-forcing probability 0, and — because of
that — its epoch loss does not depend on the random draw stream at all (for
draws in `[0, 1)`, here only nonnegativity is needed): no gradient step ever
observes or changes the model. -/
theorem evaluate_frame_and_tfp_zero {bs V W E K H D A : Nat} [NeZero W]
    (m : Seq2Seq V W E K H D A) (e lg : ℚ → ℚ) (padIdx : Fin W)
    (r1 r2 : Nat → Nat → ℚ) (iter : List (Batch bs V W))
    (hr1 : ∀ i t, 0 ≤ r1 i t) (hr2 : ∀ i t, 0 ≤ r2 i t) :
    (evaluate m e lg padIdx r1 iter).1 = m ∧
      (evaluate m e lg padIdx r1 iter).2 =
        ((iter.enum.map (fun p =>
            batchLoss lg e padIdx
              (Seq2Seq.forward m e (r1 p.1) p.2.src p.2.trg 0) p.2.trg)).sum)
          / iter.length ∧
      (evaluate m e lg padIdx r1 iter).2 = (evaluate m e lg padIdx r2 iter).2 := by
  refine ⟨rfl, rfl, ?_⟩
  unfold evaluate
  simp only
  refine congrArg (fun s => s / (iter.length : ℚ)) ?_
  refine congrArg List.sum (List.map_congr_left ?_)
  intro p _
  rw [forward_tfp_zero_congr m e (r1 p.1) (r2 p.1) p.2.src p.2.trg p.2.trg
    (hr1 p.1) (hr2 p.1) rfl rfl]

/-- A concrete one-element-batch encoder used to instantiate the theorems. -/
def encW : Encoder 1 1 1 1 :=
  { embedding := fun _ _ => 0
    gruF := fun _ _ _ => 0
    gruB := fun _ _ _ => 0
    fc := { weight := fun _ _ => 0, bias := fun _ => 0 }
    dropout := id
    tanh := id }

/-- A concrete attention module. -/
def attnW : Attention 1 1 1 :=
  { attention := { weight := fun _ _ => 0, bias := fun _ => 0 }
    tanh := id }

/-- A concrete decoder over a two-token target vocabulary. -/
def decW : Decoder 2 1 1 1 1 :=
  { embedding := fun _ _ => 0
    att := attnW
    gru := fun _ _ _ => 0
    out := { weight := fun _ _ => 0, bias := fun _ => 0 }
    dropout := id }

/-- A concrete sequence-to-sequence model. -/
def mW : Seq2Seq 1 2 1 1 1 1 1 := { encoder := encW, decoder := decW }

/-- A concrete one-position source batch. -/
def srcW : List (TokBatch 1 1) := [fun _ => 0]

/-- A target row holding token 0 for the single batch element. -/
def row0 : TokBatch 1 2 := fun _ => 0

/-- A target row holding token 1 for the single batch element. -/
def row1 : TokBatch 1 2 := fun _ => 1

/-- A concrete two-position target batch. -/
def trgW : List (TokBatch 1 2) := [row0, row1]

/-- A target batch agreeing with `trgW` at position 0 only. -/
def trgW2 : List (TokBatch 1 2) := [row0, row0]

/-- A one-position target batch. -/
def trgOneW : List (TokBatch 1 2) := [row0]

/-- A target batch whose position-1 row is the pad token 0. -/
def trgPadW : List (TokBatch 1 2) := [row1, row0]

/-- A zero score row. -/
def oZ : VecBatch 1 2 := fun _ _ => 0

/-- A score row of ones. -/
def oA : VecBatch 1 2 := fun _ _ => 1

/-- A score row of twos. -/
def oB : VecBatch 1 2 := fun _ _ => 2

/-- A one-batch iterator. -/
def iterW : List (Batch 1 1 2) := [{ src := srcW, trg := trgW }]

/-- Witness for C1 at `t = 1` on the concrete model. -/
theorem seq2seq_driver_step_witness :
    (Seq2Seq.forward mW id (fun _ => 0) srcW trgW (1 / 2))[1]? =
      some (Seq2Seq.stepScores mW id (fun _ => 0) trgW (1 / 2)
        (mW.encoder.forward srcW).1 (mW.encoder.forward srcW).2 0) :=
  (seq2seq_driver_step mW id (fun _ => 0) srcW trgW (1 / 2) 1
    (by decide) (by decide)).1

/-- Witness for C2 on the concrete attention module. -/
theorem attention_rows_nonneg_sum_one_witness :
    (Attention.forward (fun _ => 1) attnW ((fun _ _ => 0) : VecBatch 1 1)
      ([fun _ _ => 0] : List (VecBatch 1 (1 + 1))) 0).sum = 1 :=
  (attention_rows_nonneg_sum_one (fun _ => 1) attnW
    ((fun _ _ => 0) : VecBatch 1 1)
    ([fun _ _ => 0] : List (VecBatch 1 (1 + 1)))
    (fun _ => one_pos) (List.cons_ne_nil _ _) 0).2

/-- Witness for C3: corrupting the position-1 target row does not change the
teacher-forcing-free output. -/
theorem driver_tfp_zero_target_independence_witness :
    Seq2Seq.forward mW id (fun _ => 0) srcW trgW 0 =
      Seq2Seq.forward mW id (fun _ => 0) srcW trgW2 0 :=
  driver_tfp_zero_target_independence mW id (fun _ => 0) srcW trgW trgW2
    (fun _ => le_refl 0) (by decide) rfl

/-- Witness for C4 on the concrete model. -/
theorem driver_output_shape_witness :
    (Seq2Seq.forward mW id (fun _ => 0) srcW trgW (1 / 2)).length =
      trgW.length :=
  (driver_output_shape mW id (fun _ => 0) srcW trgW (1 / 2)
    (List.cons_ne_nil _ _)).1

/-- Witness for C7: score rows that differ only above the pad-token target
position give the same loss. -/
theorem loss_pad_position_invariance_witness :
    batchLoss id (fun _ => 1) (0 : Fin 2) [oZ, oA] trgPadW =
      batchLoss id (fun _ => 1) (0 : Fin 2) [oZ, oB] trgPadW :=
  loss_pad_position_invariance id (fun _ => 1) 0 [oZ, oA] [oZ, oB] trgPadW rfl
    (fun t b hb => by
      cases t with
      | zero => exact absurd rfl hb
      | succ t => exact absurd rfl hb)

/-- Witness for C8 on the concrete model and a one-batch iterator. -/
theorem evaluate_frame_and_tfp_zero_witness :
    (evaluate mW id id (0 : Fin 2) (fun _ _ => 0) iterW).1 = mW :=
  (evaluate_frame_and_tfp_zero mW id id 0 (fun _ _ => 0) (fun _ _ => 1 / 2)
    iterW (fun _ _ => le_refl 0) (fun _ _ => by norm_num)).1

/-- Witness for C9 at `t = 1` with saturated teacher forcing. -/
theorem teacher_forcing_saturated_witness :
    (Seq2Seq.loopState mW id (fun _ => 0) trgW 1 (mW.encoder.forward srcW).1
        (mW.encoder.forward srcW).2 1).1 = trgW.getD 1 (fun _ => 0) :=
  teacher_forcing_saturated mW id (fun _ => 0) trgW 1
    (mW.encoder.forward srcW).1 (mW.encoder.forward srcW).2 (le_refl 1)
    (fun _ => ⟨le_refl 0, by norm_num⟩) 1

/-- Witness for C10 on a length-1 target batch. -/
theorem driver_length_one_no_decoding_witness :
    Seq2Seq.forward mW id (fun _ => 0) srcW trgOneW (1 / 2) =
      [fun _ _ => 0] :=
  (driver_length_one_no_decoding mW id (fun _ => 0) srcW trgOneW (1 / 2)
    rfl).1
